import Mathlib

/-!
# gmplayer: playlist navigation, metadata formatting and track-length bookkeeping

A shallow embedding of `Playlist` (src/player.hpp), `format_metadata` (src/types.hpp) and
the length bookkeeping of the `GME` decoder (src/format.cpp).

Conventions of the embedding
* a C++ `int` is an `Int` in the range `[-2^31, 2^31)`; `int` arithmetic is reduced with
  `wrapInt` (two's complement, 32 bits);
* a `std::size_t` is a `Nat`; an `int` converted to `std::size_t` goes through `toSizeT`, and
  the unsigned `order.size() - 1` through `sizePred`;
* `std::size_t` has 64 bits;
* an element access outside a container is undefined behaviour in C++: a playlist operation
  that performs one evaluates to `none`, a run of `format_metadata` to `readPastEnd`.
-/

namespace gmplayer

/-! ## Machine integers -/

/-- Largest value of a C++ `int`. -/
def INT_MAX : Int := 2147483647

/-- Smallest value of a C++ `int`. -/
def INT_MIN : Int := -2147483648

/-- Values representable in a C++ `int`. -/
def isInt (x : Int) : Prop := INT_MIN ≤ x ∧ x ≤ INT_MAX

instance (x : Int) : Decidable (isInt x) := by
  unfold isInt; exact inferInstance

/-- Reduction of a mathematical integer to the `int` it is stored as (two's complement,
also the result of the narrowing conversion from `std::size_t`). -/
def wrapInt (x : Int) : Int := (x + 2147483648) % 4294967296 - 2147483648

/-- Number of values of a `std::size_t`. -/
def SIZE_MOD : Nat := 18446744073709551616

/-- Conversion of an `int` to `std::size_t`. -/
def toSizeT (x : Int) : Nat := (x % (SIZE_MOD : Int)).toNat

/-- The unsigned expression `n - 1` for a container size `n` (a `std::size_t`): it wraps
around to the largest `std::size_t` when `n` is zero. -/
def sizePred (n : Nat) : Nat := if n = 0 then SIZE_MOD - 1 else n - 1

/-! ## Playlist (src/player.hpp) -/

/-- The data members of `struct Playlist`. -/
structure Playlist where
  order : List Int
  current : Int := -1
  repeat_ : Bool
  deriving DecidableEq

namespace Playlist

/-- The value of `order.size()`. -/
def size (p : Playlist) : Nat := p.order.length

/-- Source: `void clear() { order.clear(); current = -1; }` -/
def clear (p : Playlist) : Playlist :=
  { p with order := [], current := -1 }

/-- Source: `void remove(int i) { order.erase(order.begin() + i); }`; erasing at an iterator
that does not point to an element is undefined. -/
def remove (p : Playlist) (i : Int) : Option Playlist :=
  if 0 ≤ i ∧ i < p.size then some { p with order := p.order.eraseIdx i.toNat }
  else none

/-- The indices at which `move` evaluates `order[...]`: none when the guard returns early,
otherwise those of `std::swap(order[i], order[i+pos])`. -/
def moveAccesses (p : Playlist) (i pos : Int) : List Nat :=
  let j := wrapInt (i + pos)
  if j < 0 ∨ toSizeT j > sizePred p.size then []
  else [toSizeT i, toSizeT j]

/-- Source: `std::swap(order[a], order[b])`; undefined when an index is not below the size. -/
def swapAt (l : List Int) (a b : Nat) : Option (List Int) :=
  match l[a]?, l[b]? with
  | some x, some y => some ((l.set a y).set b x)
  | _, _ => none

/-- Source: `int move(int i, int pos)`: the returned position and the playlist afterwards.
The guard compares `i + pos` (an `int`) with `order.size() - 1` (a `std::size_t`), so the
`int` is converted to `std::size_t`. -/
def move (p : Playlist) (i pos : Int) : Option (Int × Playlist) :=
  let j := wrapInt (i + pos)
  if j < 0 ∨ toSizeT j > sizePred p.size then some (i, p)
  else
    match swapAt p.order (toSizeT i) (toSizeT j) with
    | some o => some (j, { p with order := o })
    | none => none

/-- Source: `std::optional<int> get(int off, int min, int max) const`. -/
def get (p : Playlist) (off min max : Int) : Option Int :=
  if p.repeat_ = true ∧ p.current ≠ -1 then some p.current
  else if wrapInt (p.current + off) < max ∧ wrapInt (p.current + off) > min then
    some (wrapInt (p.current + off))
  else none

/-- Source: `next() const { return get(+1, -1, order.size()); }`; the size is narrowed to
the `int` parameter `max`. -/
def next (p : Playlist) : Option Int := p.get 1 (-1) (wrapInt p.size)

/-- Source: `prev() const { return get(-1, -1, order.size()); }`; the size is narrowed to
the `int` parameter `max`. -/
def prev (p : Playlist) : Option Int := p.get (-1) (-1) (wrapInt p.size)

/-- The invariant of the data model: `current` is the none-sentinel or a valid position. -/
def Inv (p : Playlist) : Prop := p.current = -1 ∨ (0 ≤ p.current ∧ p.current < p.size)

instance (p : Playlist) : Decidable (Inv p) := by
  unfold Inv; exact inferInstance

end Playlist

/-! ## Metadata and `format_metadata` (src/types.hpp) -/

/-- Source: `enum Field` of `struct Metadata`, the index of a display string in `info`. -/
inductive Field where
  | System | Game | Song | Author | Copyright | Comment | Dumper
  deriving DecidableEq

/-- Source: `struct Metadata`, the length in milliseconds and the seven display strings. -/
structure Metadata where
  length : Int
  info : Field → String

/-- The lambda `get_info` of `format_metadata`: the substitution of a directive character. -/
def get_info (m : Metadata) (c : Char) : String :=
  if c = 's' then m.info Field.Song
  else if c = 'a' then m.info Field.Author
  else if c = 'g' then m.info Field.Game
  else if c = 'b' then m.info Field.System
  else if c = 'c' then m.info Field.Comment
  else if c = 'd' then m.info Field.Dumper
  else if c = 'l' then toString m.length
  else ""

/-- What a run of `format_metadata` produces: the output string; or a read of `fmt` at an
index that is not below `fmt.size()` (undefined behaviour; the index is recorded); or nothing
within the given number of loop iterations. -/
inductive Formatted where
  | text (out : String)
  | readPastEnd (index : Nat)
  | unfinished
  deriving DecidableEq

/-- The outcome of formatting a format string that continues `n` characters into a longer
one, after those `n` characters have produced the output `s`. -/
def Formatted.continued (s : String) (n : Nat) : Formatted → Formatted
  | Formatted.text r => Formatted.text (s ++ r)
  | Formatted.readPastEnd k => Formatted.readPastEnd (n + k)
  | Formatted.unfinished => Formatted.unfinished

/-- The `for` loop of `format_metadata`, started at index `i` with `out` accumulated so far
and `fuel` iterations allowed. `i` is an `int`; it is converted to `std::size_t` in
`i < fmt.size()` and in `fmt[i]`. -/
def format_loop (fmt : List Char) (m : Metadata) : Nat → Int → String → Formatted
  | 0, _, _ => Formatted.unfinished
  | fuel + 1, i, out =>
    if h : toSizeT i < fmt.length then
      if fmt[toSizeT i] ≠ '%' then
        format_loop fmt m fuel (wrapInt (i + 1)) (out.push fmt[toSizeT i])
      else
        match fmt[toSizeT (wrapInt (i + 1))]? with
        | none => Formatted.readPastEnd (toSizeT (wrapInt (i + 1)))
        | some d =>
          format_loop fmt m fuel (wrapInt (wrapInt (i + 1) + 1)) (out ++ get_info m d)
    else Formatted.text out

/-- Source: `std::string format_metadata(std::string_view fmt, const Metadata &m)`. Every
iteration advances `i`, so `fmt.size() + 1` iterations are allowed. -/
def format_metadata (fmt : String) (m : Metadata) : Formatted :=
  format_loop fmt.data m (fmt.length + 1) 0 ""

/-- A format in which every '%' that the loop of `format_metadata` meets at the head of an
iteration is followed by a character, the directive character, which the loop skips: the
formats that do not end in an unpaired '%'. -/
def directivesComplete : List Char → Bool
  | [] => true
  | c :: rest =>
    if c ≠ '%' then directivesComplete rest
    else
      match rest with
      | [] => false
      | _ :: rest2 => directivesComplete rest2

/-! ## Length bookkeeping of the `GME` decoder (src/format.cpp) -/

/-- Modelled from the spec: the backend's per-track info `gme_info_t` (declared in gme/gme.h,
outside the sources), with the members that `track_metadata` reads: the native, intro and
loop lengths in milliseconds and the seven display strings. -/
structure gme_info_t where
  length : Int
  intro_length : Int
  loop_length : Int
  system : String
  game : String
  song : String
  author : String
  copyright : String
  comment : String
  dumper : String
  deriving DecidableEq

/-- Modelled from the spec: the backend emulator (`Music_Emu`, outside the sources) as far as
the calls made by `GME` observe it: the per-track info that `gme_track_info` hands out, the
track selected by the last `gme_start_track`, the position `gme_tell`, the end flag
`gme_track_ended`, and the fade given to `gme_set_fade`. -/
structure Emu where
  infos : List gme_info_t
  started : Option Int
  tell : Int
  ended : Bool
  fade : Option (Int × Int)
  deriving DecidableEq

/-- Modelled from the spec: the data members of `class GME` (declared in src/format.hpp,
outside the sources), as src/format.cpp reads and writes them: the backend handle `emu`, the
length `track_len` stored by `track_metadata`, and the fade parameters stored by
`set_fade`. -/
structure GME where
  emu : Emu
  track_len : Int
  fade_from : Int
  fade_len : Int
  deriving DecidableEq

/-- Source: `enum class ErrType` as used in src/format.cpp. -/
inductive ErrType where
  | None | FileType | Header | Play | Seek | LoadFile | LoadTrack | LoadM3U
  deriving DecidableEq

/-- Modelled from the spec: the backend call `gme_start_track` (outside the sources); it
selects track `n` and rewinds, or reports an error for a track that is out of range. -/
def gme_start_track (e : Emu) (n : Int) : Option Emu :=
  if 0 ≤ n ∧ n < e.infos.length then
    some { e with started := some n, tell := 0, ended := false }
  else none

namespace GME

/-- Source: `Error GME::start_track(int n)`; only the backend is touched. -/
def start_track (g : GME) (n : Int) : ErrType × GME :=
  match gme_start_track g.emu n with
  | some e => (ErrType.None, { g with emu := e })
  | none => (ErrType.LoadTrack, g)

/-- Source: `int GME::position() const`. -/
def position (g : GME) : Int := g.emu.tell

/-- Source: `Metadata GME::track_metadata(int which, int default_length)`; the returned
metadata and the decoder afterwards (`track_len` is overwritten). There is no value when the
backend has no info for `which`. -/
def track_metadata (g : GME) (which default_length : Int) : Option (Metadata × GME) :=
  if which < 0 then none
  else
    match g.emu.infos[which.toNat]? with
    | none => none
    | some info =>
      let track_len :=
        if info.length > 0 then info.length
        else if info.loop_length > 0 then
          wrapInt (info.intro_length + wrapInt (info.loop_length * 2))
        else default_length
      let data : Metadata :=
        { length := track_len
          info := fun f =>
            match f with
            | Field.System => info.system
            | Field.Game => info.game
            | Field.Song =>
              if info.song ≠ "" then info.song
              else "Track " ++ toString (wrapInt (which + 1))
            | Field.Author => info.author
            | Field.Copyright => info.copyright
            | Field.Comment => info.comment
            | Field.Dumper => info.dumper }
      some (data, { g with track_len := track_len })

/-- Source: `bool GME::track_ended() const`. -/
def track_ended (g : GME) : Bool :=
  g.emu.ended || decide (g.emu.tell > wrapInt (g.track_len + g.fade_len))

/-- Source: `void GME::set_fade(int from, int length)`. -/
def set_fade (g : GME) (from_ length : Int) : GME :=
  let g1 := { g with fade_from := from_, fade_len := length }
  if length ≠ 0 then { g1 with emu := { g1.emu with fade := some (g1.fade_from, g1.fade_len) } }
  else g1

/-- A decoder opened on a file of two tracks: track 0 has no native length, an intro of 1000
ms and a loop of 5000 ms; track 1 has a native length of 60000 ms. The three `int` members are
overwritten by the calls of `listedThenStarted` before `track_ended` reads them. -/
def twoTracks : GME :=
  { emu :=
      { infos :=
          [ { length := 0, intro_length := 1000, loop_length := 5000, system := "NES",
              game := "Game", song := "Intro", author := "", copyright := "", comment := "",
              dumper := "" },
            { length := 60000, intro_length := -1, loop_length := -1, system := "NES",
              game := "Game", song := "Stage", author := "", copyright := "", comment := "",
              dumper := "" } ]
        started := none
        tell := 0
        ended := false
        fade := none }
    track_len := 0
    fade_from := 0
    fade_len := 0 }

/-- The metadata of both tracks is fetched in order, then track 0 is started with no fade, and
the backend plays on to 20000 ms without raising its end flag. -/
def listedThenStarted : Option GME :=
  match twoTracks.track_metadata 0 180000 with
  | none => none
  | some (_, g1) =>
    match g1.track_metadata 1 180000 with
    | none => none
    | some (_, g2) =>
      let g3 := ((g2.start_track 0).2).set_fade 11000 0
      some { g3 with emu := { g3.emu with tell := 20000 } }

end GME

/-! ## Lemmas on machine integers -/

theorem wrapInt_of_isInt {x : Int} (h : isInt x) : wrapInt x = x := by
  unfold isInt INT_MIN INT_MAX at h
  unfold wrapInt
  omega

theorem isInt_wrapInt (x : Int) : isInt (wrapInt x) := by
  unfold isInt INT_MIN INT_MAX wrapInt
  omega

theorem toSizeT_of_nonneg {x : Int} (h0 : 0 ≤ x) (h : isInt x) : toSizeT x = x.toNat := by
  unfold isInt INT_MIN INT_MAX at h
  unfold toSizeT SIZE_MOD
  have hx : x % ((18446744073709551616 : Nat) : Int) = x := by
    apply Int.emod_eq_of_lt h0
    omega
  rw [hx]

theorem sizePred_of_pos {n : Nat} (h : 0 < n) : sizePred n = n - 1 := by
  unfold sizePred
  rw [if_neg (by omega)]

theorem toSizeT_natCast {n : Nat} (h : n ≤ 2147483647) : toSizeT (n : Int) = n := by
  rw [toSizeT_of_nonneg (by omega) (by unfold isInt INT_MIN INT_MAX; omega)]
  simp

theorem wrapInt_natCast_succ {n n1 : Nat} (h1 : n1 = n + 1) (h : n1 ≤ 2147483647) :
    wrapInt ((n : Int) + 1) = (n1 : Int) := by
  rw [wrapInt_of_isInt (by unfold isInt INT_MIN INT_MAX; omega)]
  omega

theorem string_append_push (s out : String) (c : Char) :
    (s ++ out).push c = s ++ out.push c := by
  apply String.ext
  simp [String.data_push, String.data_append]

theorem string_append_assoc (s out t : String) : s ++ out ++ t = s ++ (out ++ t) := by
  apply String.ext
  simp [String.data_append]

/-! ## Lemmas on exchanging two entries of a list -/

theorem perm_cons_set (t : List Int) : ∀ (b : Nat) (y h : Int), t[b]? = some y →
    (y :: t.set b h).Perm (h :: t) := by
  induction t with
  | nil => intro b y h hb; simp at hb
  | cons z t ih =>
    intro b y h hb
    cases b with
    | zero =>
      simp at hb
      subst hb
      simpa using List.Perm.swap h z t
    | succ b =>
      simp at hb
      have h1 : (y :: z :: t.set b h).Perm (z :: y :: t.set b h) := List.Perm.swap z y _
      have h2 : (z :: y :: t.set b h).Perm (z :: h :: t) := List.Perm.cons z (ih b y h hb)
      have h3 : (z :: h :: t).Perm (h :: z :: t) := List.Perm.swap h z t
      simpa using (h1.trans h2).trans h3

theorem perm_set_set (l : List Int) : ∀ (a b : Nat) (x y : Int), l[a]? = some x →
    l[b]? = some y → ((l.set a y).set b x).Perm l := by
  induction l with
  | nil => intro a b x y ha; simp at ha
  | cons z t ih =>
    intro a b x y ha hb
    cases a with
    | zero =>
      simp at ha
      subst ha
      cases b with
      | zero => simp
      | succ b =>
        simp at hb
        simpa using perm_cons_set t b y z hb
    | succ a =>
      simp at ha
      cases b with
      | zero =>
        simp at hb
        subst hb
        simpa using perm_cons_set t a x z ha
      | succ b =>
        simp at hb
        simpa using ih a b x y ha hb

namespace Playlist

/-- Both indices below the size: `swapAt` is defined and is the exchange of the two entries. -/
theorem swapAt_of_lt (l : List Int) (a b : Nat) (ha : a < l.length) (hb : b < l.length) :
    ∃ o, swapAt l a b = some o ∧ o.length = l.length ∧ o[a]? = l[b]? ∧ o[b]? = l[a]? ∧
      (∀ k, k ≠ a → k ≠ b → o[k]? = l[k]?) ∧ o.Perm l := by
  have hxa : l[a]? = some l[a] := List.getElem?_eq_getElem ha
  have hxb : l[b]? = some l[b] := List.getElem?_eq_getElem hb
  refine ⟨(l.set a l[b]).set b l[a], ?_, ?_, ?_, ?_, ?_, ?_⟩
  · simp [swapAt, hxa, hxb]
  · simp
  · by_cases hab : a = b
    · subst hab
      simp [List.getElem?_set, ha]
    · have hba : ¬ b = a := fun h => hab h.symm
      simp [List.getElem?_set, ha, hb, hab, hba]
  · simp [List.getElem?_set, ha, hb]
  · intro k hka hkb
    have h1 : ¬ a = k := fun h => hka h.symm
    have h2 : ¬ b = k := fun h => hkb h.symm
    simp [List.getElem?_set, h1, h2]
  · exact perm_set_set l a b l[a] l[b] hxa hxb

end Playlist

/-! ## Playlist navigation -/

/-- C1: for a playlist with `repeat = false` whose `current` is none (-1) or a valid position,
the size being an `int` value (`next()` and `prev()` pass it to `get` as `int max`), `next()`
returns `current + 1` when `current + 1 < order.size()` and none otherwise, and `prev()`
returns `current - 1` when `current - 1 >= 0` and none otherwise. -/
theorem Playlist.next_prev_without_repeat (p : Playlist) (hsize : isInt (p.size : Int))
    (hrep : p.repeat_ = false)
    (hcur : p.current = -1 ∨ (0 ≤ p.current ∧ p.current < p.size)) :
    p.next = (if p.current + 1 < p.size then some (p.current + 1) else none) ∧
      p.prev = (if 0 ≤ p.current - 1 then some (p.current - 1) else none) := by
  have hs : (p.size : Int) ≤ 2147483647 := hsize.2
  have hmax : wrapInt (p.size : Int) = p.size :=
    wrapInt_of_isInt (by unfold isInt INT_MIN INT_MAX; omega)
  have hup : wrapInt (p.current + 1) = p.current + 1 :=
    wrapInt_of_isInt (by unfold isInt INT_MIN INT_MAX; omega)
  have hdown : wrapInt (p.current + -1) = p.current - 1 :=
    wrapInt_of_isInt (by unfold isInt INT_MIN INT_MAX; omega)
  constructor
  · unfold Playlist.next Playlist.get
    rw [hmax, hup]
    simp only [hrep, Bool.false_eq_true, false_and, if_false]
    by_cases h : p.current + 1 < (p.size : Int)
    · rw [if_pos h, if_pos ⟨h, by omega⟩]
    · rw [if_neg h, if_neg (fun hc => h hc.1)]
  · unfold Playlist.prev Playlist.get
    rw [hmax, hdown]
    simp only [hrep, Bool.false_eq_true, false_and, if_false]
    by_cases h : 0 ≤ p.current - 1
    · rw [if_pos h, if_pos ⟨by omega, by omega⟩]
    · rw [if_neg h, if_neg (fun hc => h (by omega))]

/-- C1 at the playlist `[0, 1, 2]` with `current = 1`: `next()` is 2 and `prev()` is 0. -/
theorem Playlist.next_prev_without_repeat_witness :
    (Playlist.mk [0, 1, 2] 1 false).next = some 2 ∧
      (Playlist.mk [0, 1, 2] 1 false).prev = some 0 :=
  Playlist.next_prev_without_repeat (Playlist.mk [0, 1, 2] 1 false) (by decide) rfl (by decide)

/-- C2: for a playlist with `repeat = true` and `current` not none (-1), `next()` and
`prev()` both return `current`, whatever `order` holds. -/
theorem Playlist.next_prev_with_repeat (p : Playlist) (hrep : p.repeat_ = true)
    (hcur : p.current ≠ -1) : p.next = some p.current ∧ p.prev = some p.current := by
  constructor
  · unfold Playlist.next Playlist.get
    rw [if_pos ⟨hrep, hcur⟩]
  · unfold Playlist.prev Playlist.get
    rw [if_pos ⟨hrep, hcur⟩]

/-- C2 at a playlist with an empty `order` and `current = 7`. -/
theorem Playlist.next_prev_with_repeat_witness :
    (Playlist.mk [] 7 true).next = some 7 ∧ (Playlist.mk [] 7 true).prev = some 7 :=
  Playlist.next_prev_with_repeat (Playlist.mk [] 7 true) rfl (by decide)

/-! ## Playlist reordering -/

/-- The guard of `move` is passed exactly when the `int` sum `j` is a position of an `order`
that is not empty. -/
theorem Playlist.move_guard_of_nonempty (p : Playlist) (j : Int) (hj : isInt j)
    (hne : 0 < p.size) :
    (j < 0 ∨ toSizeT j > sizePred p.size) ↔ (j < 0 ∨ (p.size : Int) ≤ j) := by
  rw [sizePred_of_pos hne]
  constructor
  · rintro (h | h)
    · exact Or.inl h
    · by_cases h0 : j < 0
      · exact Or.inl h0
      · rw [toSizeT_of_nonneg (by omega) hj] at h
        right
        omega
  · rintro (h | h)
    · exact Or.inl h
    · right
      rw [toSizeT_of_nonneg (by omega) hj]
      omega

/-- Where the `order` is not empty, a move whose target `i + delta` is outside
`[0, order.size())` returns `i`, changes nothing and evaluates no `order[...]`. -/
theorem Playlist.move_out_of_range_of_nonempty (p : Playlist) (i delta : Int)
    (hs : isInt (i + delta)) (hne : 0 < p.size)
    (hout : i + delta < 0 ∨ (p.size : Int) ≤ i + delta) :
    p.move i delta = some (i, p) ∧ p.moveAccesses i delta = [] := by
  have hg := (Playlist.move_guard_of_nonempty p (i + delta) hs hne).mpr hout
  unfold Playlist.move Playlist.moveAccesses
  simp only [wrapInt_of_isInt hs]
  rw [if_pos hg, if_pos hg]
  exact ⟨rfl, rfl⟩

/-- C3, on the empty `order`: `move(0, 0)` has the target 0 outside `[0, 0)`, yet the guard
`i + pos > order.size() - 1` compares against the wrapped-around `std::size_t` value and lets
it through, so `order[0]` is evaluated twice on an empty vector and the call has no defined
result. -/
theorem Playlist.move_on_empty_order :
    (Playlist.mk [] (-1) false).moveAccesses 0 0 = [0, 0] ∧
      (Playlist.mk [] (-1) false).move 0 0 = none := by
  decide

/-- C4: for `int` values `i` and `i + delta` with `0 <= i < order.size()` and
`0 <= i + delta < order.size()`, `move(i, delta)` returns `i + delta`; the resulting `order`
has the entries at `i` and `i + delta` exchanged and every other position unchanged, so it
has the same length and is a permutation of the original; `current` and `repeat` are
untouched. -/
theorem Playlist.move_in_range (p : Playlist) (i delta : Int) (hi : isInt i)
    (hs : isInt (i + delta)) (h0 : 0 ≤ i) (h1 : i < p.size) (h2 : 0 ≤ i + delta)
    (h3 : i + delta < p.size) :
    ∃ q, p.move i delta = some (i + delta, q) ∧
      q.current = p.current ∧ q.repeat_ = p.repeat_ ∧
      q.order.length = p.order.length ∧
      q.order[i.toNat]? = p.order[(i + delta).toNat]? ∧
      q.order[(i + delta).toNat]? = p.order[i.toNat]? ∧
      (∀ k : Nat, k ≠ i.toNat → k ≠ (i + delta).toNat → q.order[k]? = p.order[k]?) ∧
      q.order.Perm p.order := by
  have hne : 0 < p.size := by omega
  have hg : ¬ (i + delta < 0 ∨ toSizeT (i + delta) > sizePred p.size) := by
    rw [Playlist.move_guard_of_nonempty p (i + delta) hs hne]
    omega
  have ha : i.toNat < p.order.length := by
    have : i < (p.order.length : Int) := h1
    omega
  have hb : (i + delta).toNat < p.order.length := by
    have : i + delta < (p.order.length : Int) := h3
    omega
  obtain ⟨o, ho, hlen, hab, hba, hrest, hperm⟩ :=
    Playlist.swapAt_of_lt p.order i.toNat (i + delta).toNat ha hb
  refine ⟨{ p with order := o }, ?_, rfl, rfl, hlen, hab, hba, hrest, hperm⟩
  unfold Playlist.move
  simp only [wrapInt_of_isInt hs]
  rw [if_neg hg, toSizeT_of_nonneg h0 hi, toSizeT_of_nonneg h2 hs, ho]

/-- C4 at `order = [5, 6, 7]`, `i = 0`, `delta = 2`: the call returns 2 and the order becomes
`[7, 6, 5]`. -/
theorem Playlist.move_in_range_witness :
    ∃ q, (Playlist.mk [5, 6, 7] 1 true).move 0 2 = some (0 + 2, q) ∧
      q.current = 1 ∧ q.repeat_ = true ∧
      q.order.length = 3 ∧
      q.order[0]? = some 7 ∧
      q.order[2]? = some 5 ∧
      (∀ k : Nat, k ≠ 0 → k ≠ 2 → q.order[k]? = [5, 6, 7][k]?) ∧
      q.order.Perm [5, 6, 7] :=
  Playlist.move_in_range (Playlist.mk [5, 6, 7] 1 true) 0 2 (by decide) (by decide)
    (by decide) (by decide) (by decide) (by decide)

/-! ## The playlist invariant -/

/-- C5: the one-entry playlist with `current = 0` satisfies the invariant; `clear()` resets
`current` and keeps the invariant, but `remove(0)` empties `order` and leaves `current = 0`,
which is no position of the result. Likewise `remove(0)` on `order = [0, 1]` with
`current = 1` and `repeat = true` leaves `current = 1` on a one-entry order, and `next()` then
returns the position 1, which that order does not have. -/
theorem Playlist.remove_breaks_invariant :
    (Playlist.mk [0] 0 false).Inv ∧
      (Playlist.mk [0] 0 false).remove 0 = some (Playlist.mk [] 0 false) ∧
      ¬ (Playlist.mk [] 0 false).Inv ∧
      (Playlist.mk [0] 0 false).clear.Inv ∧
      (Playlist.mk [0, 1] 1 true).Inv ∧
      (Playlist.mk [0, 1] 1 true).remove 0 = some (Playlist.mk [1] 1 true) ∧
      ¬ (Playlist.mk [1] 1 true).Inv ∧
      (Playlist.mk [1] 1 true).next = some 1 := by
  decide

/-- The invariant after each mutation of a playlist that satisfies it, for a position `i` with
`0 <= i < order.size()` and any `delta`: it holds after `clear()` and after `move(i, delta)`;
`remove(i)` deletes the entry and does not write `current`, so after it the invariant holds
exactly when `current` was none or not the last position. -/
theorem Playlist.invariant_after_mutation (p : Playlist) (i delta : Int) (hinv : p.Inv)
    (hi : isInt i) (h0 : 0 ≤ i) (h1 : i < p.size) :
    p.clear.Inv ∧
      (∃ r q, p.move i delta = some (r, q) ∧ q.Inv) ∧
      (∃ q, p.remove i = some q ∧ q.current = p.current ∧ q.size + 1 = p.size ∧
        (q.Inv ↔ (p.current = -1 ∨ p.current + 1 < p.size))) := by
  have hne : 0 < p.size := by omega
  have ha : i.toNat < p.order.length := by
    have : i < (p.order.length : Int) := h1
    omega
  refine ⟨Or.inl rfl, ?_, ?_⟩
  · have hj : isInt (wrapInt (i + delta)) := isInt_wrapInt _
    by_cases hg : wrapInt (i + delta) < 0 ∨ toSizeT (wrapInt (i + delta)) > sizePred p.size
    · refine ⟨i, p, ?_, hinv⟩
      unfold Playlist.move
      simp only []
      rw [if_pos hg]
    · have hg2 := hg
      rw [Playlist.move_guard_of_nonempty p _ hj hne] at hg2
      have hj0 : 0 ≤ wrapInt (i + delta) := by omega
      have hb : (wrapInt (i + delta)).toNat < p.order.length := by
        have : ¬ ((p.order.length : Int) ≤ wrapInt (i + delta)) := fun h => hg2 (Or.inr h)
        omega
      obtain ⟨o, ho, hlen, -⟩ :=
        Playlist.swapAt_of_lt p.order i.toNat (wrapInt (i + delta)).toNat ha hb
      refine ⟨wrapInt (i + delta), { p with order := o }, ?_, ?_⟩
      · unfold Playlist.move
        simp only []
        rw [if_neg hg, toSizeT_of_nonneg h0 hi, toSizeT_of_nonneg hj0 hj, ho]
      · unfold Playlist.Inv Playlist.size at *
        simp only [hlen]
        exact hinv
  · have hlen : (p.order.eraseIdx i.toNat).length + 1 = p.order.length := by
      rw [List.length_eraseIdx, if_pos ha]
      omega
    refine ⟨{ p with order := p.order.eraseIdx i.toNat }, ?_, rfl, hlen, ?_⟩
    · unfold Playlist.remove
      rw [if_pos ⟨h0, h1⟩]
    · unfold Playlist.Inv Playlist.size at *
      simp only []
      constructor
      · rintro (h | ⟨_, h⟩)
        · exact Or.inl h
        · right
          omega
      · rintro (h | h)
        · exact Or.inl h
        · rcases hinv with hc | ⟨hc, _⟩
          · exact Or.inl hc
          · right
            constructor
            · exact hc
            · omega

/-- The invariant after each mutation at `order = [0, 1, 2]`, `current = 1`, `i = 0`,
`delta = 1`. -/
theorem Playlist.invariant_after_mutation_witness :
    (Playlist.mk [0, 1, 2] 1 false).clear.Inv ∧
      (∃ r q, (Playlist.mk [0, 1, 2] 1 false).move 0 1 = some (r, q) ∧ q.Inv) ∧
      (∃ q, (Playlist.mk [0, 1, 2] 1 false).remove 0 = some q ∧ q.current = 1 ∧
        q.size + 1 = 3 ∧ (q.Inv ↔ ((1 : Int) = -1 ∨ (1 : Int) + 1 < (3 : Nat)))) :=
  Playlist.invariant_after_mutation (Playlist.mk [0, 1, 2] 1 false) 0 1 (by decide)
    (by decide) (by decide) (by decide)

/-! ## Metadata formatting -/

/-- C6: on the formats "%" and "100%", which end in an unpaired '%', the directive lookup
`fmt[++i]` is evaluated at index `fmt.size()` (1 and 4), for every metadata. -/
theorem format_metadata_trailing_percent (m : Metadata) :
    format_metadata "%" m = Formatted.readPastEnd 1 ∧
      format_metadata "100%" m = Formatted.readPastEnd 4 := by
  constructor <;> rfl

/-- C7: `format_metadata("%s - %a (%b)", m)` is the song, " - ", the author, " (", the system
and ")", for every metadata `m`. -/
theorem format_metadata_song_author_system (m : Metadata) :
    format_metadata "%s - %a (%b)" m =
      Formatted.text (m.info Field.Song ++ " - " ++ m.info Field.Author ++ " (" ++
        m.info Field.System ++ ")") := by
  have h : format_metadata "%s - %a (%b)" m =
      Formatted.text ((((((("" ++ m.info Field.Song).push ' ').push '-').push ' ' ++
        m.info Field.Author).push ' ').push '(' ++ m.info Field.System).push ')') := rfl
  rw [h]
  congr 1
  apply String.ext
  simp [String.data_push, String.data_append]

/-- The loop on a format that continues a longer one: the run on `q` from index `k`, moved
behind `pre`, for any two sufficient budgets; and the budget is never exhausted. -/
theorem format_loop_append (m : Metadata) (pre q : List Char)
    (hlen : pre.length + q.length ≤ 2147483647) :
    ∀ (fuel fuel2 k : Nat) (s out : String), k ≤ q.length → q.length - k < fuel →
      q.length - k < fuel2 →
      format_loop (pre ++ q) m fuel ((pre.length + k : Nat) : Int) (s ++ out) =
          (format_loop q m fuel2 (k : Int) out).continued s pre.length ∧
        format_loop q m fuel2 (k : Int) out ≠ Formatted.unfinished := by
  intro fuel
  induction fuel with
  | zero => intro fuel2 k s out hk hf; omega
  | succ fuel ih =>
    intro fuel2 k s out hk hf hf2
    obtain ⟨f2, rfl⟩ : ∃ f2, fuel2 = f2 + 1 := ⟨fuel2 - 1, by omega⟩
    unfold format_loop
    rw [show toSizeT ((pre.length + k : Nat) : Int) = pre.length + k from
        toSizeT_natCast (by omega),
      show toSizeT (k : Int) = k from toSizeT_natCast (by omega)]
    simp only [List.length_append]
    by_cases hkl : k < q.length
    · have hkl1 : pre.length + k < pre.length + q.length := by omega
      have hkb : pre.length + k < (pre ++ q).length := by
        rw [List.length_append]
        exact hkl1
      have hget : (pre ++ q)[pre.length + k] = q[k] := by
        rw [List.getElem_append_right (by omega)]
        simp
      rw [dif_pos hkl1, dif_pos hkl, hget,
        show wrapInt (((pre.length + k : Nat) : Int) + 1) = ((pre.length + (k + 1) : Nat) : Int)
          from wrapInt_natCast_succ (by omega) (by omega),
        show wrapInt ((k : Int) + 1) = ((k + 1 : Nat) : Int)
          from wrapInt_natCast_succ rfl (by omega)]
      by_cases hc : q[k] ≠ '%'
      · rw [if_pos hc, if_pos hc, string_append_push]
        exact ih f2 (k + 1) s (out.push q[k]) (by omega) (by omega) (by omega)
      · rw [if_neg hc, if_neg hc,
          show toSizeT ((pre.length + (k + 1) : Nat) : Int) = pre.length + (k + 1) from
            toSizeT_natCast (by omega),
          show toSizeT ((k + 1 : Nat) : Int) = k + 1 from toSizeT_natCast (by omega),
          show (pre ++ q)[pre.length + (k + 1)]? = q[k + 1]? by
            rw [List.getElem?_append_right (by omega), Nat.add_sub_cancel_left]]
        rcases hq : q[k + 1]? with _ | d
        · simp [Formatted.continued]
        · have hk2 : k + 1 < q.length := by
            rcases Nat.lt_or_ge (k + 1) q.length with h | h
            · exact h
            · rw [List.getElem?_eq_none h] at hq
              cases hq
          simp only []
          rw [show wrapInt (((pre.length + (k + 1) : Nat) : Int) + 1) =
                ((pre.length + (k + 2) : Nat) : Int)
              from wrapInt_natCast_succ (by omega) (by omega),
            show wrapInt (((k + 1 : Nat) : Int) + 1) = ((k + 2 : Nat) : Int)
              from wrapInt_natCast_succ (by omega) (by omega),
            string_append_assoc]
          exact ih f2 (k + 2) s (out ++ get_info m d) (by omega) (by omega) (by omega)
    · have hkl1 : ¬ pre.length + k < pre.length + q.length := by omega
      rw [dif_neg hkl1, dif_neg hkl]
      simp [Formatted.continued]

/-- The loop over a stretch of the format without '%': every character is copied. -/
theorem format_loop_literal (m : Metadata) (p rest : List Char) (hp : '%' ∉ p)
    (hlen : p.length + rest.length ≤ 2147483647) :
    ∀ (j n fuel : Nat) (out : String), n + j = p.length →
      format_loop (p ++ rest) m (fuel + j) (n : Int) out =
        format_loop (p ++ rest) m fuel (p.length : Int) (out ++ String.mk (p.drop n)) := by
  intro j
  induction j with
  | zero =>
    intro n fuel out hn
    have hn2 : n = p.length := by omega
    subst hn2
    have hout : out ++ String.mk (List.drop p.length p) = out := by
      apply String.ext
      simp [String.data_append]
    rw [hout]
    rfl
  | succ j ih =>
    intro n fuel out hn
    have hnp : n < p.length := by omega
    have hnb : n < (p ++ rest).length := by
      rw [List.length_append]
      omega
    have hget : (p ++ rest)[n] = p[n] := List.getElem_append_left hnp
    have hne : p[n] ≠ '%' := fun h => hp (h ▸ List.getElem_mem hnp)
    have hout : out.push p[n] ++ String.mk (List.drop (n + 1) p) =
        out ++ String.mk (List.drop n p) := by
      apply String.ext
      rw [List.drop_eq_getElem_cons hnp]
      simp [String.data_append, String.data_push]
    show format_loop (p ++ rest) m (fuel + j + 1) (n : Int) out = _
    rw [format_loop,
      show toSizeT (n : Int) = n from toSizeT_natCast (by omega)]
    rw [dif_pos hnb, hget, if_pos hne,
      show wrapInt ((n : Int) + 1) = ((n + 1 : Nat) : Int)
        from wrapInt_natCast_succ rfl (by omega),
      ih (n + 1) fuel (out.push p[n]) (by omega), hout]

/-- One iteration of the loop at a '%' that is followed by the character `d`. -/
theorem format_loop_directive (m : Metadata) (fmt : List Char) (n fuel : Nat) (d : Char)
    (out : String) (h1 : fmt[n]? = some '%') (h2 : fmt[n + 1]? = some d)
    (hlen : n + 2 ≤ 2147483647) :
    format_loop fmt m (fuel + 1) (n : Int) out =
      format_loop fmt m fuel ((n + 2 : Nat) : Int) (out ++ get_info m d) := by
  have hn : n < fmt.length := by
    rcases Nat.lt_or_ge n fmt.length with h | h
    · exact h
    · rw [List.getElem?_eq_none h] at h1
      cases h1
  have hget : fmt[n] = '%' := by
    rw [List.getElem?_eq_getElem hn] at h1
    exact Option.some.inj h1
  rw [format_loop, show toSizeT (n : Int) = n from toSizeT_natCast (by omega)]
  rw [dif_pos hn, hget, if_neg (by simp),
    show wrapInt ((n : Int) + 1) = ((n + 1 : Nat) : Int)
      from wrapInt_natCast_succ rfl (by omega),
    show toSizeT ((n + 1 : Nat) : Int) = n + 1 from toSizeT_natCast (by omega), h2]
  simp only []
  rw [show wrapInt (((n + 1 : Nat) : Int) + 1) = ((n + 2 : Nat) : Int)
      from wrapInt_natCast_succ rfl (by omega)]

/-- The loop of `format_metadata` ends within its `fmt.size() + 1` iterations, for every
format whose length is an `int` value: the result is an output string or a read past the
end. -/
theorem format_metadata_finishes (fmt : String) (m : Metadata)
    (hlen : isInt (fmt.length : Int)) : format_metadata fmt m ≠ Formatted.unfinished := by
  have hl : ([] : List Char).length + fmt.data.length ≤ 2147483647 := by
    have h : ((fmt.data.length : Nat) : Int) ≤ 2147483647 := hlen.2
    simp only [List.length_nil]
    omega
  exact (format_loop_append m [] fmt.data hl (fmt.data.length + 1) (fmt.data.length + 1) 0 "" ""
    (Nat.zero_le _) (by omega) (by omega)).2

/-- The run on `p ++ "%" ++ c ++ q`, for `p` without '%' and `c` no directive, is the run on
`q` continued behind the output `p` and the `p.size() + 2` characters read. -/
theorem format_metadata_after_directive (m : Metadata) (c : Char) (p q : String)
    (hlen : isInt ((p ++ "%" ++ String.singleton c ++ q).length : Int))
    (hc : c ∉ ['s', 'a', 'g', 'b', 'c', 'd', 'l']) (hp : '%' ∉ p.data) :
    format_metadata (p ++ "%" ++ String.singleton c ++ q) m =
        (format_metadata q m).continued p (p.length + 2) ∧
      format_metadata q m ≠ Formatted.unfinished := by
  have hdata : (p ++ "%" ++ String.singleton c ++ q).data = p.data ++ ('%' :: c :: q.data) := by
    simp [String.data_append, String.singleton]
  have hl : p.data.length + 2 + q.data.length ≤ 2147483647 := by
    have h : (((p ++ "%" ++ String.singleton c ++ q).data.length : Nat) : Int) ≤ 2147483647 :=
      hlen.2
    rw [hdata] at h
    simp only [List.length_append, List.length_cons] at h
    omega
  have hinfo : get_info m c = "" := by
    simp only [List.mem_cons, List.mem_singleton, List.not_mem_nil, or_false, not_or] at hc
    obtain ⟨h1, h2, h3, h4, h5, h6, h7⟩ := hc
    simp [get_info, h1, h2, h3, h4, h5, h6, h7]
  have hfuel : (p ++ "%" ++ String.singleton c ++ q).length + 1 =
      (q.data.length + 2 + 1) + p.data.length := by
    have h : (p ++ "%" ++ String.singleton c ++ q).length =
        (p ++ "%" ++ String.singleton c ++ q).data.length := rfl
    rw [h, hdata]
    simp only [List.length_append, List.length_cons]
    omega
  have hpre : (p.data ++ ['%', c]).length = p.data.length + 2 := by simp
  have hsplit : p.data ++ ('%' :: c :: q.data) = (p.data ++ ['%', c]) ++ q.data := by simp
  have hmain := format_loop_append m (p.data ++ ['%', c]) q.data (by rw [hpre]; omega)
    (q.data.length + 2) (q.data.length + 1) 0 p "" (Nat.zero_le _) (by omega) (by omega)
  refine ⟨?_, hmain.2⟩
  have hstart : ("" : String) ++ String.mk (List.drop 0 p.data) = p := by
    apply String.ext
    simp [String.data_append]
  have hout : p ++ get_info m c = p ++ "" := by rw [hinfo]
  have hrun := format_loop_literal m p.data ('%' :: c :: q.data) hp
    (by simp only [List.length_cons]; omega) p.data.length 0 (q.data.length + 2 + 1) ""
    (by omega)
  have hat : (p.data ++ ('%' :: c :: q.data))[p.data.length]? = some '%' := by
    rw [List.getElem?_append_right (Nat.le_refl _), Nat.sub_self]
    rfl
  have hnext : (p.data ++ ('%' :: c :: q.data))[p.data.length + 1]? = some c := by
    rw [List.getElem?_append_right (Nat.le_add_right _ _), Nat.add_sub_cancel_left]
    simp
  have hstep := format_loop_directive m (p.data ++ ('%' :: c :: q.data)) p.data.length
    (q.data.length + 2) c p hat hnext (by omega)
  unfold format_metadata
  rw [hdata, hfuel]
  show format_loop (p.data ++ '%' :: c :: q.data) m (q.data.length + 2 + 1 + p.data.length)
    ((0 : Nat) : Int) "" = _
  rw [hrun, hstart, hstep, hout, hsplit]
  rw [hpre] at hmain
  exact hmain.1

theorem directivesComplete_cons_literal (c : Char) (rest : List Char) (h : c ≠ '%') :
    directivesComplete (c :: rest) = directivesComplete rest := by
  cases rest <;> simp [directivesComplete, h]

theorem directivesComplete_percent_nil : directivesComplete ['%'] = false := by
  simp [directivesComplete]

theorem directivesComplete_percent_cons (d : Char) (rest : List Char) :
    directivesComplete ('%' :: d :: rest) = directivesComplete rest := by
  simp [directivesComplete]

/-- The outcome of the loop from index `k` on: an output string when the rest of the format
has every directive complete, and otherwise the read at index `fmt.size()`. -/
theorem format_loop_outcome (m : Metadata) (q : List Char) (hlen : q.length ≤ 2147483647) :
    ∀ (fuel k : Nat) (out : String), k ≤ q.length → q.length - k < fuel →
      (directivesComplete (q.drop k) = true → ∃ r, format_loop q m fuel (k : Int) out =
          Formatted.text r) ∧
        (directivesComplete (q.drop k) = false →
          format_loop q m fuel (k : Int) out = Formatted.readPastEnd q.length) := by
  intro fuel
  induction fuel with
  | zero => intro k out hk hf; omega
  | succ fuel ih =>
    intro k out hk hf
    unfold format_loop
    rw [show toSizeT (k : Int) = k from toSizeT_natCast (by omega)]
    by_cases hkl : k < q.length
    · rw [dif_pos hkl, List.drop_eq_getElem_cons hkl,
        show wrapInt ((k : Int) + 1) = ((k + 1 : Nat) : Int)
          from wrapInt_natCast_succ rfl (by omega)]
      by_cases hc : q[k] ≠ '%'
      · rw [if_pos hc, directivesComplete_cons_literal _ _ hc]
        exact ih (k + 1) (out.push q[k]) (by omega) (by omega)
      · have hqk : q[k] = '%' := Classical.not_not.mp hc
        rw [if_neg hc, hqk,
          show toSizeT ((k + 1 : Nat) : Int) = k + 1 from toSizeT_natCast (by omega)]
        rcases Nat.lt_or_ge (k + 1) q.length with hk2 | hk2
        · rw [List.getElem?_eq_getElem hk2, List.drop_eq_getElem_cons hk2,
            directivesComplete_percent_cons]
          simp only []
          rw [show wrapInt (((k + 1 : Nat) : Int) + 1) = ((k + 2 : Nat) : Int)
              from wrapInt_natCast_succ rfl (by omega)]
          exact ih (k + 2) (out ++ get_info m q[k + 1]) (by omega) (by omega)
        · have hend : k + 1 = q.length := by omega
          rw [List.getElem?_eq_none hk2, List.drop_eq_nil_of_le hk2,
            directivesComplete_percent_nil]
          simp only []
          rw [hend]
          exact ⟨fun h => (by cases h), fun _ => rfl⟩
    · have hend : k = q.length := by omega
      rw [dif_neg hkl, List.drop_eq_nil_of_le (by omega)]
      exact ⟨fun _ => ⟨out, rfl⟩, fun h => (by cases h)⟩

/-- The outcome of `format_metadata` on a format whose length is an `int` value: an output
string when every directive is complete, and otherwise the read at index `fmt.size()`. -/
theorem format_metadata_outcome (fmt : String) (m : Metadata)
    (hlen : isInt (fmt.length : Int)) :
    (directivesComplete fmt.data = true → ∃ r, format_metadata fmt m = Formatted.text r) ∧
      (directivesComplete fmt.data = false →
        format_metadata fmt m = Formatted.readPastEnd fmt.length) := by
  have hl : fmt.data.length ≤ 2147483647 := by
    have h : ((fmt.data.length : Nat) : Int) ≤ 2147483647 := hlen.2
    omega
  exact format_loop_outcome m fmt.data hl (fmt.data.length + 1) 0 "" (Nat.zero_le _)
    (by omega)

/-- A format without '%' whose length is an `int` value is copied to the output. -/
theorem format_metadata_literal (q : String) (m : Metadata) (hlen : isInt (q.length : Int))
    (hq : '%' ∉ q.data) : format_metadata q m = Formatted.text q := by
  have hl : q.data.length + ([] : List Char).length ≤ 2147483647 := by
    have h : ((q.data.length : Nat) : Int) ≤ 2147483647 := hlen.2
    simp only [List.length_nil]
    omega
  have hrun := format_loop_literal m q.data [] hq hl q.data.length 0 1 "" (by omega)
  rw [List.append_nil] at hrun
  have hstart : ("" : String) ++ String.mk (List.drop 0 q.data) = q := by
    apply String.ext
    simp [String.data_append]
  have hfuel : q.length + 1 = 1 + q.data.length := by
    show q.data.length + 1 = 1 + q.data.length
    omega
  unfold format_metadata
  rw [hfuel]
  show format_loop q.data m (1 + q.data.length) ((0 : Nat) : Int) "" = _
  rw [hrun, hstart, format_loop,
    show toSizeT (q.data.length : Int) = q.data.length from toSizeT_natCast (by omega),
    dif_neg (Nat.lt_irrefl _)]

/-- C8: for a character `c` that is no directive (not one of s, a, g, b, c, d, l; '%' is such
a character), a string `p` without '%' and any string `q`, the length of the whole format
being an `int` value (the loop index is an `int`):
where `q` has every directive complete, `format_metadata(q, m)` is a string `r` and
`format_metadata(p ++ "%" ++ c ++ q, m)` is the string `p ++ r`, so the directive contributes
nothing and takes up exactly '%' and `c`; in particular the result is `p ++ q` when `q` has no
'%'; where `q` ends in an unpaired '%', both calls read past the end of their format. -/
theorem format_metadata_unknown_directive (m : Metadata) (c : Char) (p q : String)
    (hlen : isInt ((p ++ "%" ++ String.singleton c ++ q).length : Int))
    (hc : c ∉ ['s', 'a', 'g', 'b', 'c', 'd', 'l']) (hp : '%' ∉ p.data) :
    (directivesComplete q.data = true →
        ∃ r, format_metadata q m = Formatted.text r ∧
          format_metadata (p ++ "%" ++ String.singleton c ++ q) m = Formatted.text (p ++ r)) ∧
      ('%' ∉ q.data →
        format_metadata (p ++ "%" ++ String.singleton c ++ q) m = Formatted.text (p ++ q)) ∧
      (directivesComplete q.data = false →
        format_metadata q m = Formatted.readPastEnd q.length ∧
          format_metadata (p ++ "%" ++ String.singleton c ++ q) m =
            Formatted.readPastEnd (p.length + 2 + q.length)) := by
  have hdata : (p ++ "%" ++ String.singleton c ++ q).data = p.data ++ ('%' :: c :: q.data) := by
    simp [String.data_append, String.singleton]
  have hq : isInt (q.length : Int) := by
    have h : (((p ++ "%" ++ String.singleton c ++ q).data.length : Nat) : Int) ≤ 2147483647 :=
      hlen.2
    rw [hdata] at h
    simp only [List.length_append, List.length_cons] at h
    have h2 : ((q.data.length : Nat) : Int) ≤ 2147483647 := by omega
    exact ⟨by unfold INT_MIN; show (-2147483648 : Int) ≤ (q.data.length : Int); omega, h2⟩
  have hrel := (format_metadata_after_directive m c p q hlen hc hp).1
  have hout := format_metadata_outcome q m hq
  refine ⟨?_, ?_, ?_⟩
  · intro hcomplete
    obtain ⟨r, hr⟩ := hout.1 hcomplete
    refine ⟨r, hr, ?_⟩
    rw [hrel, hr]
    rfl
  · intro hnone
    rw [hrel, format_metadata_literal q m hq hnone]
    rfl
  · intro hbroken
    have hr := hout.2 hbroken
    refine ⟨hr, ?_⟩
    rw [hrel, hr]
    rfl

/-- C8 at `c = 'z'`, `p = "ab"`, `q = "%s!"`. -/
theorem format_metadata_unknown_directive_witness :
    (directivesComplete "%s!".data = true →
        ∃ r, format_metadata "%s!" (Metadata.mk 0 (fun _ => "x")) = Formatted.text r ∧
          format_metadata ("ab" ++ "%" ++ String.singleton 'z' ++ "%s!")
            (Metadata.mk 0 (fun _ => "x")) = Formatted.text ("ab" ++ r)) ∧
      ('%' ∉ "%s!".data →
        format_metadata ("ab" ++ "%" ++ String.singleton 'z' ++ "%s!")
          (Metadata.mk 0 (fun _ => "x")) = Formatted.text ("ab" ++ "%s!")) ∧
      (directivesComplete "%s!".data = false →
        format_metadata "%s!" (Metadata.mk 0 (fun _ => "x")) =
            Formatted.readPastEnd "%s!".length ∧
          format_metadata ("ab" ++ "%" ++ String.singleton 'z' ++ "%s!")
            (Metadata.mk 0 (fun _ => "x")) =
            Formatted.readPastEnd ("ab".length + 2 + "%s!".length)) :=
  format_metadata_unknown_directive (Metadata.mk 0 (fun _ => "x")) 'z' "ab" "%s!"
    (by decide) (by decide) (by decide)

/-! ## Track length and end of track -/

/-- C9: for a track whose backend info has native length `n`, intro length `I` and loop length
`L`, and any `default_length` `D`, `track_metadata` returns `Metadata.length = n` when
`n > 0`, otherwise `I + 2 * L` when `L > 0` (that sum being an `int` value), otherwise `D`;
the same value is stored in `track_len`. -/
theorem GME.track_metadata_length (g : GME) (which D : Int) (info : gme_info_t)
    (hw : 0 ≤ which) (hinfo : g.emu.infos[which.toNat]? = some info)
    (hfit : info.length ≤ 0 → 0 < info.loop_length →
      isInt (info.intro_length + 2 * info.loop_length)) :
    ∃ md g2, g.track_metadata which D = some (md, g2) ∧
      md.length =
        (if info.length > 0 then info.length
         else if info.loop_length > 0 then info.intro_length + 2 * info.loop_length
         else D) ∧
      g2.track_len = md.length := by
  unfold GME.track_metadata
  rw [if_neg (by omega), hinfo]
  refine ⟨_, _, rfl, ?_, rfl⟩
  simp only []
  by_cases hn : info.length > 0
  · rw [if_pos hn, if_pos hn]
  · rw [if_neg hn, if_neg hn]
    by_cases hl : info.loop_length > 0
    · have hsum : wrapInt (info.intro_length + wrapInt (info.loop_length * 2)) =
          info.intro_length + 2 * info.loop_length := by
        have h := hfit (by omega) hl
        unfold isInt INT_MIN INT_MAX at h
        unfold wrapInt
        omega
      rw [if_pos hl, if_pos hl, hsum]
    · rw [if_neg hl, if_neg hl]

/-- C9 at native length 0, intro length 1000 and loop length 5000 (track 0 of `twoTracks`):
the length is 11000. -/
theorem GME.track_metadata_length_witness :
    ∃ md g2, twoTracks.track_metadata 0 180000 = some (md, g2) ∧
      md.length =
        (if (0 : Int) > 0 then 0 else if (5000 : Int) > 0 then 1000 + 2 * 5000 else 180000) ∧
      g2.track_len = md.length :=
  GME.track_metadata_length twoTracks 0 180000
    { length := 0, intro_length := 1000, loop_length := 5000, system := "NES",
      game := "Game", song := "Intro", author := "", copyright := "", comment := "",
      dumper := "" }
    (by decide) rfl (fun _ _ => by decide)

/-- C10: after the metadata of tracks 0 and 1 has been fetched and track 0 started with a
fade length of 0, the started track is track 0, whose computed length is 11000; at position
20000, beyond 11000 + 0, with the backend's end flag false, `track_ended()` is false: it
compares against `track_len = 60000`, the length of track 1, whose metadata was fetched
last. -/
theorem GME.track_ended_uses_last_fetched_length :
    listedThenStarted.map
        (fun g => (g.emu.started, g.fade_len, g.emu.ended, g.position, g.track_len,
          g.track_ended)) =
        some (some 0, 0, false, 20000, 60000, false) ∧
      (listedThenStarted.bind (fun g => g.track_metadata 0 180000)).map
        (fun r => r.1.length) = some 11000 := by
  decide

end gmplayer
